import Mathlib

/-!
Verification of the macmoji asset-validation and glyph-injection pipeline.

Python strings are modelled as `List Char` (with `str.upper` modelled on the
basic-latin range, matching `Char.toUpper`), Python `int` as `Int`,
Python `dict` as insertion-ordered association lists, and a raised
`ValueError` as `Except.error`.
-/

namespace Macmoji

/-- Python `s.split(sep)` for a one-character separator `sep`:
always returns a non-empty list; consecutive separators produce
empty segments. -/
def splitOnChar (sep : Char) : List Char → List (List Char)
  | [] => [[]]
  | c :: cs =>
    match splitOnChar sep cs with
    | [] => [[]]
    | s :: ss => if c = sep then [] :: s :: ss else (c :: s) :: ss

/-- Python `sep.join(parts)` for a one-character separator. -/
def joinSep (sep : Char) : List (List Char) → List Char
  | [] => []
  | [s] => s
  | s :: t :: rest => s ++ sep :: joinSep sep (t :: rest)

/-- Combined model of the prologue of `reformat_emoji_name`:
`modifiers = ""; base_name = name; if "." in name: base_name, modifiers =
name.split(".", 1)`.  Returns the part before the first `'.'` and the part
after it (`[]` when there is no dot, exactly as Python's default `""`). -/
def breakDot : List Char → List Char × List Char
  | [] => ([], [])
  | c :: cs =>
    if c = '.' then ([], cs)
    else
      let p := breakDot cs
      (c :: p.1, p.2)

/-- Model of `_codify` from `macmoji/utils.py`:
upper-case the code, drop one leading `U`, strip leading zeros and
re-prefix with a lowercase `u`. -/
def dropLeadingU : List Char → List Char
  | [] => []
  | c :: cs => if c = 'U' then cs else c :: cs

def codify (code : List Char) : List Char :=
  'u' :: (dropLeadingU (code.map Char.toUpper)).dropWhile (· = '0')

/-- Model of `reformat_emoji_name` from `macmoji/utils.py`.  The only raise
that can fire is the `(codes)` one: `name.split(".", 1)` never raises when
`"." in name`, so the `(modifiers)` branch is dead code. -/
def reformatEmojiName (name : List Char) : Except String (List Char) :=
  if [] ∈ splitOnChar '_' (breakDot name).1 then
    .error "Invalid emoji name (codes)"
  else
    .ok (joinSep '_' ((splitOnChar '_' (breakDot name).1).map codify) ++
      (if (breakDot name).2 ≠ [] then '.' :: (breakDot name).2 else []))

theorem toNat_ofNat_valid {m : Nat} (h : m < 55296) :
    (Char.ofNat m).toNat = m := by
  have hv : m.isValidChar := Or.inl h
  simp only [Char.ofNat, hv, dite_true, Char.ofNatAux, Char.toNat]
  rfl

theorem toUpper_of_lower {c : Char} (h : 97 ≤ c.toNat ∧ c.toNat ≤ 122) :
    c.toUpper = Char.ofNat (c.toNat - 32) := by
  unfold Char.toUpper
  simp [h]

theorem toUpper_of_not_lower {c : Char}
    (h : ¬(97 ≤ c.toNat ∧ c.toNat ≤ 122)) : c.toUpper = c := by
  unfold Char.toUpper
  simp [h]

theorem toUpper_toUpper (c : Char) : c.toUpper.toUpper = c.toUpper := by
  by_cases h : 97 ≤ c.toNat ∧ c.toNat ≤ 122
  · have hn : (Char.ofNat (c.toNat - 32)).toNat = c.toNat - 32 :=
      toNat_ofNat_valid (by omega)
    rw [toUpper_of_lower h]
    exact toUpper_of_not_lower (by rw [hn]; omega)
  · rw [toUpper_of_not_lower h, toUpper_of_not_lower h]

theorem toUpper_eq_of_not_upper {c d : Char}
    (h : ¬(65 ≤ d.toNat ∧ d.toNat ≤ 90)) (he : c.toUpper = d) : c = d := by
  by_cases hc : 97 ≤ c.toNat ∧ c.toNat ≤ 122
  · exfalso
    rw [toUpper_of_lower hc] at he
    have hn : d.toNat = c.toNat - 32 := by
      rw [← he]; exact toNat_ofNat_valid (by omega)
    exact h ⟨by omega, by omega⟩
  · rw [toUpper_of_not_lower hc] at he
    exact he

theorem splitOnChar_ne_nil (sep : Char) (l : List Char) :
    splitOnChar sep l ≠ [] := by
  cases l with
  | nil => simp [splitOnChar]
  | cons c cs =>
    simp only [splitOnChar]
    cases h : splitOnChar sep cs with
    | nil => simp
    | cons s ss =>
      by_cases hc : c = sep <;> simp [hc]

theorem not_mem_of_mem_splitOnChar {sep : Char} {l : List Char} :
    ∀ s ∈ splitOnChar sep l, sep ∉ s := by
  induction l with
  | nil =>
    intro s hs
    simp only [splitOnChar, List.mem_singleton] at hs
    subst hs; simp
  | cons c cs ih =>
    intro s hs
    simp only [splitOnChar] at hs
    cases h : splitOnChar sep cs with
    | nil => exact absurd h (splitOnChar_ne_nil sep cs)
    | cons t ts =>
      rw [h] at hs
      have ht : sep ∉ t := ih t (by rw [h]; exact List.mem_cons_self t ts)
      have hts : ∀ u ∈ ts, sep ∉ u := fun u hu =>
        ih u (by rw [h]; exact List.mem_cons_of_mem t hu)
      by_cases hc : c = sep
      · simp only [hc, if_true, List.mem_cons] at hs
        rcases hs with h1 | h1 | h1
        · subst h1; simp
        · exact h1 ▸ ht
        · exact hts s h1
      · simp only [hc, if_false, List.mem_cons] at hs
        rcases hs with h1 | h1
        · subst h1
          intro hmem
          rcases List.mem_cons.mp hmem with h2 | h2
          · exact hc h2.symm
          · exact ht h2
        · exact hts s h1

theorem mem_of_mem_splitOnChar {sep : Char} {l : List Char} :
    ∀ s ∈ splitOnChar sep l, ∀ x ∈ s, x ∈ l := by
  induction l with
  | nil =>
    intro s hs x hx
    simp only [splitOnChar, List.mem_singleton] at hs
    subst hs; simp at hx
  | cons c cs ih =>
    intro s hs x hx
    simp only [splitOnChar] at hs
    cases h : splitOnChar sep cs with
    | nil => exact absurd h (splitOnChar_ne_nil sep cs)
    | cons t ts =>
      rw [h] at hs
      have ht : ∀ x ∈ t, x ∈ cs := fun x hx =>
        ih t (by rw [h]; exact List.mem_cons_self t ts) x hx
      have hts : ∀ u ∈ ts, ∀ x ∈ u, x ∈ cs := fun u hu x hx =>
        ih u (by rw [h]; exact List.mem_cons_of_mem t hu) x hx
      by_cases hc : c = sep
      · simp only [hc, if_true, List.mem_cons] at hs
        rcases hs with h1 | h1 | h1
        · subst h1; simp at hx
        · exact List.mem_cons_of_mem c (ht x (h1 ▸ hx))
        · exact List.mem_cons_of_mem c (hts s h1 x hx)
      · simp only [hc, if_false, List.mem_cons] at hs
        rcases hs with h1 | h1
        · subst h1
          rcases List.mem_cons.mp hx with h2 | h2
          · exact h2 ▸ List.mem_cons_self c cs
          · exact List.mem_cons_of_mem c (ht x h2)
        · exact List.mem_cons_of_mem c (hts s h1 x hx)

theorem splitOnChar_no_sep {sep : Char} {s : List Char} (h : sep ∉ s) :
    splitOnChar sep s = [s] := by
  induction s with
  | nil => rfl
  | cons c cs ih =>
    have hc : c ≠ sep := fun he => h (he ▸ List.mem_cons_self c cs)
    have hcs : sep ∉ cs := fun hm => h (List.mem_cons_of_mem c hm)
    simp only [splitOnChar]
    rw [ih hcs]
    simp [hc]

theorem splitOnChar_append_sep {sep : Char} {s r : List Char} (h : sep ∉ s) :
    splitOnChar sep (s ++ sep :: r) = s :: splitOnChar sep r := by
  induction s with
  | nil =>
    simp only [List.nil_append, splitOnChar]
    cases hr : splitOnChar sep r with
    | nil => exact absurd hr (splitOnChar_ne_nil sep r)
    | cons t ts => simp
  | cons c cs ih =>
    have hc : c ≠ sep := fun he => h (he ▸ List.mem_cons_self c cs)
    have hcs : sep ∉ cs := fun hm => h (List.mem_cons_of_mem c hm)
    simp only [List.cons_append, splitOnChar, List.append_eq]
    rw [ih hcs]
    simp [hc]

theorem splitOnChar_joinSep {sep : Char} {L : List (List Char)}
    (hne : L ≠ []) (hsep : ∀ s ∈ L, sep ∉ s) :
    splitOnChar sep (joinSep sep L) = L := by
  induction L with
  | nil => exact absurd rfl hne
  | cons s rest ih =>
    cases rest with
    | nil =>
      simp only [joinSep]
      exact splitOnChar_no_sep (hsep s (List.mem_cons_self s []))
    | cons t ts =>
      have hs : sep ∉ s := hsep s (List.mem_cons_self s (t :: ts))
      have hrest : ∀ u ∈ t :: ts, sep ∉ u := fun u hu =>
        hsep u (List.mem_cons_of_mem s hu)
      simp only [joinSep]
      rw [splitOnChar_append_sep hs, ih (by simp) hrest]

theorem mem_joinSep {sep : Char} {L : List (List Char)} {x : Char}
    (hx : x ∈ joinSep sep L) : x = sep ∨ ∃ s ∈ L, x ∈ s := by
  induction L with
  | nil => simp [joinSep] at hx
  | cons s rest ih =>
    cases rest with
    | nil =>
      simp only [joinSep] at hx
      exact Or.inr ⟨s, List.mem_cons_self s [], hx⟩
    | cons t ts =>
      simp only [joinSep, List.mem_append, List.mem_cons] at hx
      rcases hx with h1 | h1 | h1
      · exact Or.inr ⟨s, List.mem_cons_self s (t :: ts), h1⟩
      · exact Or.inl h1
      · rcases ih h1 with h2 | ⟨u, hu, hxu⟩
        · exact Or.inl h2
        · exact Or.inr ⟨u, List.mem_cons_of_mem s hu, hxu⟩

theorem breakDot_no_dot {l : List Char} (h : '.' ∉ l) :
    breakDot l = (l, []) := by
  induction l with
  | nil => rfl
  | cons c cs ih =>
    have hc : c ≠ '.' := fun he => h (he ▸ List.mem_cons_self c cs)
    have hcs : '.' ∉ cs := fun hm => h (List.mem_cons_of_mem c hm)
    simp [breakDot, hc, ih hcs]

theorem breakDot_append {b m : List Char} (h : '.' ∉ b) :
    breakDot (b ++ '.' :: m) = (b, m) := by
  induction b with
  | nil => simp [breakDot]
  | cons c cs ih =>
    have hc : c ≠ '.' := fun he => h (he ▸ List.mem_cons_self c cs)
    have hcs : '.' ∉ cs := fun hm => h (List.mem_cons_of_mem c hm)
    simp [breakDot, hc, ih hcs]

theorem breakDot_fst_no_dot (l : List Char) : '.' ∉ (breakDot l).1 := by
  induction l with
  | nil => simp [breakDot]
  | cons c cs ih =>
    by_cases hc : c = '.'
    · simp [breakDot, hc]
    · simp only [breakDot, hc, if_false, List.mem_cons]
      rintro (h1 | h1)
      · exact hc h1.symm
      · exact ih h1

theorem mem_dropLeadingU {l : List Char} {x : Char}
    (h : x ∈ dropLeadingU l) : x ∈ l := by
  cases l with
  | nil => simp [dropLeadingU] at h
  | cons c cs =>
    by_cases hc : c = 'U'
    · simp only [dropLeadingU, hc, if_true] at h
      exact List.mem_cons_of_mem c h
    · simpa [dropLeadingU, hc] using h

theorem mem_codify {c : List Char} {x : Char} (h : x ∈ codify c) :
    x = 'u' ∨ ∃ y ∈ c, x = y.toUpper := by
  simp only [codify, List.mem_cons] at h
  rcases h with h | h
  · exact Or.inl h
  · have h1 : x ∈ dropLeadingU (c.map Char.toUpper) :=
      (List.dropWhile_sublist _).subset h
    have h2 : x ∈ c.map Char.toUpper := mem_dropLeadingU h1
    rcases List.mem_map.mp h2 with ⟨y, hy, he⟩
    exact Or.inr ⟨y, hy, he.symm⟩

theorem not_mem_codify {x : Char} (hx1 : ¬(65 ≤ x.toNat ∧ x.toNat ≤ 90))
    (hx2 : x ≠ 'u') {c : List Char} (hc : x ∉ c) : x ∉ codify c := by
  intro hmem
  rcases mem_codify hmem with h | ⟨y, hy, he⟩
  · exact hx2 h
  · exact hc ((toUpper_eq_of_not_upper hx1 he.symm) ▸ hy)

theorem codify_ne_nil (c : List Char) : codify c ≠ [] := by simp [codify]

theorem codify_codify (c : List Char) : codify (codify c) = codify c := by
  simp only [codify]
  set S := (dropLeadingU (c.map Char.toUpper)).dropWhile (· = '0') with hS
  have hfix : ∀ x ∈ S, x.toUpper = x := by
    intro x hx
    have h1 : x ∈ c.map Char.toUpper :=
      mem_dropLeadingU ((List.dropWhile_sublist _).subset hx)
    rcases List.mem_map.mp h1 with ⟨y, _, he⟩
    rw [← he, toUpper_toUpper]
  have hmap : S.map Char.toUpper = S := by
    rw [List.map_congr_left hfix]
    simp
  have hcons : ('u' :: S).map Char.toUpper = 'U' :: S := by
    rw [List.map_cons, hmap]
    rfl
  rw [hcons]
  have hU : dropLeadingU ('U' :: S) = S := by simp [dropLeadingU]
  rw [hU, hS, List.dropWhile_idempotent]

/-- C7 helper: the canonical form produced by a successful
`reformat_emoji_name` call. -/
theorem reformatEmojiName_ok {name r : List Char}
    (h : reformatEmojiName name = .ok r) :
    [] ∉ splitOnChar '_' (breakDot name).1 ∧
    r = joinSep '_' ((splitOnChar '_' (breakDot name).1).map codify) ++
      (if (breakDot name).2 ≠ [] then '.' :: (breakDot name).2 else []) := by
  unfold reformatEmojiName at h
  by_cases hmem : [] ∈ splitOnChar '_' (breakDot name).1
  · simp [hmem] at h
  · simp only [hmem, if_false, Except.ok.injEq] at h
    exact ⟨hmem, h.symm⟩

/-- C7: name normalization is idempotent — whenever `reformat_emoji_name`
succeeds with result `r`, running it again on `r` returns `r` unchanged. -/
theorem reformatEmojiName_idempotent {name r : List Char}
    (h : reformatEmojiName name = .ok r) :
    reformatEmojiName r = .ok r := by
  obtain ⟨hmem, hr⟩ := reformatEmojiName_ok h
  have hdot_base : '.' ∉ (breakDot name).1 := breakDot_fst_no_dot name
  have hcode_nous : ∀ s ∈ splitOnChar '_' (breakDot name).1, '_' ∉ s :=
    not_mem_of_mem_splitOnChar
  have hcode_nodot : ∀ s ∈ splitOnChar '_' (breakDot name).1, '.' ∉ s :=
    fun s hs hd => hdot_base (mem_of_mem_splitOnChar s hs '.' hd)
  have hJ_nodot :
      '.' ∉ joinSep '_' ((splitOnChar '_' (breakDot name).1).map codify) := by
    intro hx
    rcases mem_joinSep hx with h1 | ⟨s, hs, hxs⟩
    · exact absurd h1 (by decide)
    · rcases List.mem_map.mp hs with ⟨t, ht, rfl⟩
      exact not_mem_codify (by decide) (by decide) (hcode_nodot t ht) hxs
  have hmapne :
      (splitOnChar '_' (breakDot name).1).map codify ≠ [] := by
    intro hc
    exact splitOnChar_ne_nil '_' (breakDot name).1 (List.map_eq_nil_iff.mp hc)
  have hJ_split :
      splitOnChar '_'
          (joinSep '_' ((splitOnChar '_' (breakDot name).1).map codify)) =
        (splitOnChar '_' (breakDot name).1).map codify := by
    apply splitOnChar_joinSep hmapne
    intro s hs
    rcases List.mem_map.mp hs with ⟨t, ht, rfl⟩
    exact not_mem_codify (by decide) (by decide) (hcode_nous t ht)
  have hbreak_r :
      breakDot r =
        (joinSep '_' ((splitOnChar '_' (breakDot name).1).map codify),
          (breakDot name).2) := by
    by_cases hm : (breakDot name).2 = []
    · rw [hr]
      simp only [hm, ne_eq, not_true_eq_false, if_false, List.append_nil]
      rw [breakDot_no_dot hJ_nodot]
    · rw [hr]
      simp only [hm, ne_eq, not_false_eq_true, if_true]
      exact breakDot_append hJ_nodot
  have hnil_not :
      [] ∉ splitOnChar '_' (breakDot r).1 := by
    rw [hbreak_r]
    simp only [hJ_split]
    intro hm
    rcases List.mem_map.mp hm with ⟨t, _, ht⟩
    exact codify_ne_nil t ht
  unfold reformatEmojiName
  simp only [hnil_not, if_false]
  rw [hbreak_r]
  simp only [hJ_split]
  rw [List.map_map]
  have : (splitOnChar '_' (breakDot name).1).map (codify ∘ codify) =
      (splitOnChar '_' (breakDot name).1).map codify :=
    List.map_congr_left (fun t _ => codify_codify t)
  rw [this, ← hr]

/-- C7 witness: idempotence applied at the concrete input `u1f385.2`. -/
theorem reformatEmojiName_idempotent_witness :
    reformatEmojiName "u1f385.2".toList = .ok "u1F385.2".toList ∧
    reformatEmojiName "u1F385.2".toList = .ok "u1F385.2".toList :=
  ⟨rfl, @reformatEmojiName_idempotent "u1f385.2".toList "u1F385.2".toList rfl⟩

/-- C6 counterexample: the claim says an input with more than one
'.'-separated suffix (more than one '.') raises `InvalidNameFormat`, but
`reformat_emoji_name` succeeds on `u1F385.2.M`, which contains two dots:
`name.split(".", 1)` never raises, and everything after the first dot is
carried verbatim as the modifier suffix. -/
theorem reformatEmojiName_multi_dot_counterexample :
    reformatEmojiName "u1F385.2.M".toList = .ok "u1F385.2.M".toList := rfl

/-- C6 amended: `reformat_emoji_name` fails exactly when the part of the
name before the first `'.'` splits on `'_'` into a list containing an empty
codepoint segment (in particular for the empty string and for
leading/trailing/consecutive underscores); additional '.'-separated
suffixes never cause a failure. -/
theorem reformatEmojiName_error_characterization (base mods : List Char)
    (hdot : '.' ∉ base) :
    ((reformatEmojiName base).isOk = false ↔ [] ∈ splitOnChar '_' base) ∧
    (reformatEmojiName (base ++ '.' :: mods)).isOk
      = (reformatEmojiName base).isOk ∧
    (reformatEmojiName []).isOk = false := by
  refine ⟨?_, ?_, rfl⟩
  · unfold reformatEmojiName
    rw [breakDot_no_dot hdot]
    by_cases hmem : [] ∈ splitOnChar '_' base <;> simp [hmem, Except.isOk, Except.toBool]
  · unfold reformatEmojiName
    rw [breakDot_append hdot, breakDot_no_dot hdot]
    by_cases hmem : [] ∈ splitOnChar '_' base <;> simp [hmem, Except.isOk, Except.toBool]

/-- C6 amended witness: the characterization applied at `u1F385__u1F3FB`
(which fails: consecutive underscores) and at `u1F385` with suffix `2.M`
(which succeeds despite the two dots). -/
theorem reformatEmojiName_error_characterization_witness :
    ((reformatEmojiName "u1F385__u1F3FB".toList).isOk = false ↔
      [] ∈ splitOnChar '_' "u1F385__u1F3FB".toList) ∧
    (reformatEmojiName ("u1F385".toList ++ '.' :: "2.M".toList)).isOk
      = (reformatEmojiName "u1F385".toList).isOk :=
  ⟨(reformatEmojiName_error_characterization "u1F385__u1F3FB".toList []
      (by decide)).1,
    (reformatEmojiName_error_characterization "u1F385".toList "2.M".toList
      (by decide)).2.1⟩

example : reformatEmojiName "u1f385".toList = .ok "u1F385".toList := rfl

/-- ASSET_SIZES from `macmoji/config.py`. -/
def ASSET_SIZES : List Int := [20, 26, 32, 40, 48, 52, 64, 96, 160]

/-- Decimal digit-string value. -/
def digitsVal (ds : List Char) : Nat :=
  ds.foldl (fun acc c => acc * 10 + (c.toNat - 48)) 0

def parseDigits (ds : List Char) : Option Nat :=
  if ds = [] then none
  else if ds.all (·.isDigit) then some (digitsVal ds) else none

/-- Model of Python `int(s)` on plain sign-and-digits literals (the only
forms a file stem's size field takes here); other strings raise
`ValueError`, modelled as `none`. -/
def parsePyInt : List Char → Option Int
  | '-' :: ds => (parseDigits ds).map (fun n => -(n : Int))
  | '+' :: ds => (parseDigits ds).map (fun n => (n : Int))
  | ds => (parseDigits ds).map (fun n => (n : Int))

/-- an entry of `assets_dir.iterdir()`: its path, whether it is a regular
file, and its stem (file name without the final suffix). -/
structure DirEntry where
  path : String
  isFile : Bool
  stem : List Char
deriving DecidableEq

/-- Model of `raw_name, size = asset_path.stem.split(" "); size = int(size)`
with the surrounding `try`: `none` when the split does not yield exactly two
parts or the size is not an integer literal. -/
def parseStem (stem : List Char) : Option (List Char × Int) :=
  match splitOnChar ' ' stem with
  | [raw, szs] => (parsePyInt szs).map (fun n => (raw, n))
  | _ => none

def lookupA {α β : Type} [DecidableEq α] (k : α) : List (α × β) → Option β
  | [] => none
  | (k', v) :: rest => if k' = k then some v else lookupA k rest

/-- Python `dict` mapping an asset size to the path providing it,
in insertion order. -/
abbrev SizeMap := List (Int × String)

/-- Python `dict` mapping a glyph name to its per-size paths,
in insertion order. -/
abbrev AssetMap := List (List Char × SizeMap)

/-- Model of the accumulation step of `assets_info`:
`if name not in info: info[name] = {}` followed by
`if size not in info[name]: info[name][size] = asset_path`.
New keys are appended (dict insertion order); an existing
`(name, size)` entry is left untouched. -/
def addAsset : AssetMap → List Char → Int → String → AssetMap
  | [], name, size, path => [(name, [(size, path)])]
  | (n, m) :: rest, name, size, path =>
    if n = name then
      (n, if (lookupA size m).isSome then m else m ++ [(size, path)]) :: rest
    else
      (n, m) :: addAsset rest name size path

/-- Model of the scan loop of `assets_info` over the directory listing.
Only the reasons' fixed prefixes are kept (the Python code interpolates the
offending stem into the message). A `ValueError` escaping
`reformat_emoji_name` is NOT caught (the call sits after the
`try`/`except`), so it aborts the whole function. -/
def assetsInfoLoop :
    List DirEntry → AssetMap → List (String × String) →
      Except String (AssetMap × List (String × String))
  | [], info, ignored => .ok (info, ignored)
  | e :: rest, info, ignored =>
    if e.isFile = false then
      assetsInfoLoop rest info (ignored ++ [(e.path, "is a directory")])
    else
      match parseStem e.stem with
      | none =>
        assetsInfoLoop rest info
          (ignored ++ [(e.path, "has invalid file name")])
      | some (raw, size) =>
        match reformatEmojiName raw with
        | .error msg => .error msg
        | .ok name => assetsInfoLoop rest (addAsset info name size e.path) ignored

/-- Python `set(asset.keys()) == set(ASSET_SIZES)`. -/
def completeSizes (m : SizeMap) : Bool :=
  ASSET_SIZES.all (fun z => (lookupA z m).isSome) &&
    m.all (fun p => decide (p.1 ∈ ASSET_SIZES))

/-- Model of the filtering pass of `assets_info`: names with exactly the
full fixed size set are kept; every path of any other name is appended to
the ignored list with reason "has missing/invalid sizes". -/
def filterComplete : AssetMap → AssetMap × List (String × String)
  | [] => ([], [])
  | (n, m) :: rest =>
    let p := filterComplete rest
    if completeSizes m then ((n, m) :: p.1, p.2)
    else (p.1, m.map (fun q => (q.2, "has missing/invalid sizes")) ++ p.2)

/-- Model of `assets_info` from `macmoji/inserter.py`. -/
def assetsInfo (entries : List DirEntry) :
    Except String (AssetMap × List (String × String)) :=
  match assetsInfoLoop entries [] [] with
  | .error msg => .error msg
  | .ok (info, ignored) =>
    let p := filterComplete info
    .ok (p.1, ignored ++ p.2)

/-- Lookup through both levels of the accumulated mapping:
the path registered for `(name, size)`, if any. -/
def lookup2 (info : AssetMap) (n : List Char) (s : Int) : Option String :=
  match lookupA n info with
  | some m => lookupA s m
  | none => none

/-- Lookup of `(name, size)` in an `assets_info` result: `none` when the
call raised or the pair is absent. -/
def assetLookup (r : Except String (AssetMap × List (String × String)))
    (name : List Char) (size : Int) : Option String :=
  match r with
  | .ok (assets, _) => lookup2 assets name size
  | .error _ => none

theorem lookupA_append {α β : Type} [DecidableEq α] (k : α)
    (l₁ l₂ : List (α × β)) :
    lookupA k (l₁ ++ l₂) = (lookupA k l₁).or (lookupA k l₂) := by
  induction l₁ with
  | nil => simp [lookupA]
  | cons p rest ih =>
    by_cases hk : p.1 = k
    · simp [lookupA, hk]
    · simp only [List.cons_append, lookupA, hk, if_false]
      exact ih

theorem lookupA_eq_none_iff {α β : Type} [DecidableEq α] (k : α)
    (l : List (α × β)) : lookupA k l = none ↔ k ∉ l.map Prod.fst := by
  induction l with
  | nil => simp [lookupA]
  | cons p rest ih =>
    by_cases hk : p.1 = k
    · simp [lookupA, hk]
    · simp only [lookupA, hk, if_false, List.map_cons, List.mem_cons, ih]
      constructor
      · rintro h (h1 | h1)
        · exact hk h1.symm
        · exact h h1
      · intro h h1
        exact h (Or.inr h1)

theorem mem_keys_of_lookupA {α β : Type} [DecidableEq α] {k : α}
    {l : List (α × β)} {v : β} (h : lookupA k l = some v) :
    k ∈ l.map Prod.fst := by
  by_contra hmem
  rw [← lookupA_eq_none_iff k l] at hmem
  rw [h] at hmem
  exact Option.noConfusion hmem

theorem lookup2_cons (k : List Char) (m : SizeMap) (rest : AssetMap)
    (n : List Char) (s : Int) :
    lookup2 ((k, m) :: rest) n s =
      if k = n then lookupA s m else lookup2 rest n s := by
  by_cases hk : k = n <;> simp [lookup2, lookupA, hk]

theorem lookup2_addAsset (info : AssetMap) (name : List Char) (size : Int)
    (path : String) (n : List Char) (s : Int) :
    lookup2 (addAsset info name size path) n s =
      if n = name ∧ s = size ∧ lookup2 info name size = none then some path
      else lookup2 info n s := by
  induction info with
  | nil =>
    by_cases hn : n = name
    · subst hn
      by_cases hs : s = size
      · subst hs
        simp [addAsset, lookup2, lookupA]
      · have hs2 : size ≠ s := fun h => hs h.symm
        simp [addAsset, lookup2, lookupA, hs, hs2]
    · have hn2 : name ≠ n := fun h => hn h.symm
      simp [addAsset, lookup2, lookupA, hn, hn2]
  | cons p rest ih =>
    obtain ⟨k, m⟩ := p
    by_cases hk : k = name
    · subst hk
      cases hsz : lookupA size m with
      | some v =>
        have hm' : addAsset ((k, m) :: rest) k size path = (k, m) :: rest := by
          simp [addAsset, hsz]
        rw [hm']
        have hcond : ¬(n = k ∧ s = size ∧
            lookup2 ((k, m) :: rest) k size = none) := by
          rintro ⟨_, _, h3⟩
          rw [lookup2_cons, if_pos rfl, hsz] at h3
          exact Option.noConfusion h3
        rw [if_neg hcond]
      | none =>
        have hm' : addAsset ((k, m) :: rest) k size path
            = (k, m ++ [(size, path)]) :: rest := by
          simp [addAsset, hsz]
        rw [hm']
        by_cases hn : k = n
        · subst hn
          by_cases hs : s = size
          · subst hs
            simp [lookup2_cons, hsz, lookupA_append, lookupA, Option.or]
          · have hs2 : size ≠ s := fun h => hs h.symm
            simp only [lookup2_cons, if_pos rfl, hsz, lookupA_append]
            have hnone : lookupA s [(size, path)] = none := by
              simp [lookupA, hs2]
            rw [hnone]
            have hor : (lookupA s m).or none = lookupA s m := by
              cases lookupA s m <;> rfl
            rw [hor]
            simp [hs]
        · have hn2 : n ≠ k := fun h => hn h.symm
          simp [lookup2_cons, hn, hn2]
    · have hm' : addAsset ((k, m) :: rest) name size path
          = (k, m) :: addAsset rest name size path := by
        simp [addAsset, hk]
      rw [hm']
      simp only [lookup2_cons, if_neg hk]
      by_cases hn : k = n
      · simp only [if_pos hn]
        have hcond : ¬(n = name ∧ s = size ∧ lookup2 rest name size = none) := by
          rintro ⟨h1, _, _⟩
          exact hk (hn.trans h1)
        rw [if_neg hcond]
      · simp only [if_neg hn]
        exact ih
def entryContributes (e : DirEntry) : Option (List Char × Int) :=
  if e.isFile then
    match parseStem e.stem with
    | some (raw, size) =>
      match reformatEmojiName raw with
      | .ok name => some (name, size)
      | .error _ => none
    | none => none
  else none

theorem assetsInfoLoop_lookup :
    ∀ (entries : List DirEntry) (info : AssetMap)
      (ign ign' : List (String × String)) (info' : AssetMap)
      (n : List Char) (s : Int),
      assetsInfoLoop entries info ign = .ok (info', ign') →
      lookup2 info' n s =
        (lookup2 info n s).or
          ((entries.find? (fun e => entryContributes e == some (n, s))).map
            DirEntry.path) := by
  intro entries
  induction entries with
  | nil =>
    intro info ign ign' info' n s h
    simp only [assetsInfoLoop, Except.ok.injEq, Prod.mk.injEq] at h
    obtain ⟨h1, _⟩ := h
    subst h1
    simp [List.find?, Option.or_none]
  | cons e rest ih =>
    intro info ign ign' info' n s h
    simp only [assetsInfoLoop] at h
    cases hfe : e.isFile with
    | false =>
      simp only [hfe, eq_self_iff_true, if_true] at h
      have hc : entryContributes e = none := by simp [entryContributes, hfe]
      have hb : (entryContributes e == some (n, s)) = false := by simp [hc]
      rw [ih _ _ _ _ _ _ h]
      simp only [List.find?, hb]
    | true =>
      simp only [hfe] at h
      rw [if_neg (by simp)] at h
      cases hp : parseStem e.stem with
      | none =>
        simp only [hp] at h
        have hc : entryContributes e = none := by
          simp [entryContributes, hfe, hp]
        have hb : (entryContributes e == some (n, s)) = false := by simp [hc]
        rw [ih _ _ _ _ _ _ h]
        simp only [List.find?, hb]
      | some rs =>
        obtain ⟨raw, size⟩ := rs
        simp only [hp] at h
        cases hr : reformatEmojiName raw with
        | error msg =>
          simp only [hr] at h
          exact Except.noConfusion h
        | ok name =>
          simp only [hr] at h
          have hc : entryContributes e = some (name, size) := by
            simp [entryContributes, hfe, hp, hr]
          rw [ih _ _ _ _ _ _ h, lookup2_addAsset]
          by_cases hcase : n = name ∧ s = size
          · obtain ⟨hn, hs⟩ := hcase
            subst hn
            subst hs
            have hb : (entryContributes e == some (n, s)) = true := by
              simp [hc]
            simp only [List.find?, hb]
            by_cases hnone : lookup2 info n s = none
            · rw [if_pos (by simp [hnone]), hnone]
              simp
            · rw [if_neg (by rintro ⟨_, _, h3⟩; exact hnone h3)]
              rcases Option.ne_none_iff_exists'.mp hnone with ⟨v, hv⟩
              rw [hv]
              simp
          · have hb : (entryContributes e == some (n, s)) = false := by
              rw [hc, beq_eq_false_iff_ne]
              intro hval
              injection hval with h2
              exact hcase ⟨(congrArg Prod.fst h2).symm, (congrArg Prod.snd h2).symm⟩
            simp only [List.find?, hb]
            rw [if_neg (by rintro ⟨h1, h2, _⟩; exact hcase ⟨h1, h2⟩)]

theorem keys_addAsset (info : AssetMap) (name : List Char) (size : Int)
    (path : String) :
    (addAsset info name size path).map Prod.fst =
      if (lookupA name info).isSome then info.map Prod.fst
      else info.map Prod.fst ++ [name] := by
  induction info with
  | nil => simp [addAsset, lookupA]
  | cons p rest ih =>
    obtain ⟨k, m⟩ := p
    by_cases hk : k = name
    · subst hk
      simp [addAsset, lookupA]
    · by_cases hs : (lookupA name rest).isSome <;>
        simp [addAsset, lookupA, hk, ih, hs]

theorem nodup_keys_addAsset {info : AssetMap}
    (h : (info.map Prod.fst).Nodup) (name : List Char) (size : Int)
    (path : String) :
    ((addAsset info name size path).map Prod.fst).Nodup := by
  rw [keys_addAsset]
  by_cases hs : (lookupA name info).isSome
  · simp [hs, h]
  · simp only [hs, if_false]
    have hnot : name ∉ info.map Prod.fst := by
      rw [← lookupA_eq_none_iff]
      cases hl : lookupA name info with
      | none => rfl
      | some v => rw [hl] at hs; simp at hs
    exact h.append (List.nodup_singleton name)
      (fun a ha hb => by
        rw [List.mem_singleton] at hb
        exact hnot (hb ▸ ha))

theorem assetsInfoLoop_nodup :
    ∀ (entries : List DirEntry) (info : AssetMap)
      (ign ign' : List (String × String)) (info' : AssetMap),
      assetsInfoLoop entries info ign = .ok (info', ign') →
      (info.map Prod.fst).Nodup → (info'.map Prod.fst).Nodup := by
  intro entries
  induction entries with
  | nil =>
    intro info ign ign' info' h hnd
    simp only [assetsInfoLoop, Except.ok.injEq, Prod.mk.injEq] at h
    obtain ⟨h1, _⟩ := h
    subst h1
    exact hnd
  | cons e rest ih =>
    intro info ign ign' info' h hnd
    simp only [assetsInfoLoop] at h
    cases hfe : e.isFile with
    | false =>
      simp only [hfe, eq_self_iff_true, if_true] at h
      exact ih _ _ _ _ h hnd
    | true =>
      simp only [hfe] at h
      rw [if_neg (by simp)] at h
      cases hp : parseStem e.stem with
      | none =>
        simp only [hp] at h
        exact ih _ _ _ _ h hnd
      | some rs =>
        obtain ⟨raw, size⟩ := rs
        simp only [hp] at h
        cases hr : reformatEmojiName raw with
        | error msg =>
          simp only [hr] at h
          exact Except.noConfusion h
        | ok name =>
          simp only [hr] at h
          exact ih _ _ _ _ h (nodup_keys_addAsset hnd name size e.path)

theorem lookupA_filterComplete :
    ∀ (info : AssetMap), (info.map Prod.fst).Nodup →
      ∀ (n : List Char) (m : SizeMap),
        lookupA n (filterComplete info).1 = some m → lookupA n info = some m := by
  intro info
  induction info with
  | nil =>
    intro _ n m h
    simp [filterComplete, lookupA] at h
  | cons p rest ih =>
    obtain ⟨k, mk⟩ := p
    intro hnd n m h
    have hnd_rest : (rest.map Prod.fst).Nodup := by
      simp only [List.map_cons, List.nodup_cons] at hnd
      exact hnd.2
    have hk_not : k ∉ rest.map Prod.fst := by
      simp only [List.map_cons, List.nodup_cons] at hnd
      exact hnd.1
    by_cases hc : completeSizes mk
    · simp only [filterComplete, hc, if_true] at h
      by_cases hkn : k = n
      · simp only [lookupA, hkn, if_true] at h ⊢
        exact h
      · simp only [lookupA, hkn, if_false] at h ⊢
        exact ih hnd_rest n m h
    · simp only [filterComplete, hc, if_false] at h
      have hrest : lookupA n rest = some m := ih hnd_rest n m h
      have hkn : k ≠ n := by
        intro he
        subst he
        exact hk_not (mem_keys_of_lookupA hrest)
      simp only [lookupA, hkn, if_false]
      exact hrest

theorem lookup2_filterComplete {info : AssetMap} {n : List Char} {s : Int}
    {p : String} (hnd : (info.map Prod.fst).Nodup)
    (h : lookup2 (filterComplete info).1 n s = some p) :
    lookup2 info n s = some p := by
  unfold lookup2 at h ⊢
  cases hl : lookupA n (filterComplete info).1 with
  | none => rw [hl] at h; exact Option.noConfusion h
  | some m =>
    rw [hl] at h
    rw [lookupA_filterComplete info hnd n m hl]
    exact h

theorem assetsInfoLoop_error_of_bad :
    ∀ (entries : List DirEntry) (info : AssetMap)
      (ign : List (String × String)) (e : DirEntry) (raw : List Char)
      (sz : Int) (msg : String),
      e ∈ entries → e.isFile = true → parseStem e.stem = some (raw, sz) →
      reformatEmojiName raw = .error msg →
      ∃ msg', assetsInfoLoop entries info ign = .error msg' := by
  intro entries
  induction entries with
  | nil =>
    intro info ign e raw sz msg hmem _ _ _
    simp at hmem
  | cons e0 rest ih =>
    intro info ign e raw sz msg hmem hf hp hr
    simp only [assetsInfoLoop]
    cases hfe : e0.isFile with
    | false =>
      simp only [eq_self_iff_true, if_true]
      rcases List.mem_cons.mp hmem with heq | hmem'
      · rw [heq] at hf
        rw [hf] at hfe
        exact Bool.noConfusion hfe
      · exact ih info _ e raw sz msg hmem' hf hp hr
    | true =>
      rw [if_neg (by simp)]
      cases hp0 : parseStem e0.stem with
      | none =>
        rcases List.mem_cons.mp hmem with heq | hmem'
        · rw [heq] at hp
          rw [hp] at hp0
          exact Option.noConfusion hp0
        · exact ih info _ e raw sz msg hmem' hf hp hr
      | some rs0 =>
        obtain ⟨raw0, sz0⟩ := rs0
        dsimp only
        cases hr0 : reformatEmojiName raw0 with
        | error msg0 => exact ⟨msg0, rfl⟩
        | ok name0 =>
          rcases List.mem_cons.mp hmem with heq | hmem'
          · rw [heq] at hp
            rw [hp] at hp0
            injection hp0 with h2
            injection h2 with h3 h4
            rw [← h3] at hr0
            rw [hr0] at hr
            exact Except.noConfusion hr
          · exact ih _ _ e raw sz msg hmem' hf hp hr

/-- C1 counterexample: a directory containing one file
`u1F385__u1F3FB 20.png`, whose stem splits into a raw name and the integer
size 20 but whose raw name fails normalization, makes `assets_info` raise
a `ValueError` (the `reformat_emoji_name` call sits outside the
`try`/`except`), instead of returning normally with the path in the ignored
list as claimed. -/
theorem assetsInfo_invalid_name_counterexample :
    assetsInfo [⟨"u1F385__u1F3FB 20.png", true, "u1F385__u1F3FB 20".toList⟩]
      = .error "Invalid emoji name (codes)" := rfl

/-- C1 amended: in `assets_info`, directory entries and stem-parse failures
are recovered locally, but a file whose stem splits into a raw name and an
integer size and whose raw name fails normalization aborts the whole batch
scan: `assets_info` raises for any directory listing containing such a
file. -/
theorem assetsInfo_aborts_on_invalid_name (entries : List DirEntry)
    (e : DirEntry) (raw : List Char) (sz : Int) (msg : String)
    (hmem : e ∈ entries) (hf : e.isFile = true)
    (hp : parseStem e.stem = some (raw, sz))
    (hr : reformatEmojiName raw = .error msg) :
    ∃ msg', assetsInfo entries = .error msg' := by
  obtain ⟨msg', hloop⟩ :=
    assetsInfoLoop_error_of_bad entries [] [] e raw sz msg hmem hf hp hr
  exact ⟨msg', by unfold assetsInfo; rw [hloop]⟩

/-- C1 amended witness: the abort theorem applied to the one-file directory
from the counterexample. -/
theorem assetsInfo_aborts_on_invalid_name_witness :
    ∃ msg',
      assetsInfo [⟨"u1F385__u1F3FB 20.png", true,
        "u1F385__u1F3FB 20".toList⟩] = .error msg' :=
  assetsInfo_aborts_on_invalid_name _
    ⟨"u1F385__u1F3FB 20.png", true, "u1F385__u1F3FB 20".toList⟩
    "u1F385__u1F3FB".toList 20 "Invalid emoji name (codes)"
    (List.mem_singleton.mpr rfl) rfl rfl rfl

/-- the duplicate-pair directory listing used against C2: a complete
nine-size set for `u1F600` followed by a second file for the pair
`(u1F600, 20)` under a different path. -/
def dupEntries : List DirEntry :=
  [⟨"u1F600 20.png", true, "u1F600 20".toList⟩,
   ⟨"u1F600 26.png", true, "u1F600 26".toList⟩,
   ⟨"u1F600 32.png", true, "u1F600 32".toList⟩,
   ⟨"u1F600 40.png", true, "u1F600 40".toList⟩,
   ⟨"u1F600 48.png", true, "u1F600 48".toList⟩,
   ⟨"u1F600 52.png", true, "u1F600 52".toList⟩,
   ⟨"u1F600 64.png", true, "u1F600 64".toList⟩,
   ⟨"u1F600 96.png", true, "u1F600 96".toList⟩,
   ⟨"u1F600 160.png", true, "u1F600 160".toList⟩,
   ⟨"dup/u1F600 20.png", true, "u1F600 20".toList⟩]

/-- C2 counterexample: with a duplicate `(u1F600, 20)` pair whose
later-processed file has path `dup/u1F600 20.png`, the returned AssetSet
maps the pair to the FIRST file's path, not the last one: the accumulation
step is `if size not in info[name]`, so later duplicates are dropped. -/
theorem assetsInfo_duplicate_counterexample :
    assetLookup (assetsInfo dupEntries) "u1F600".toList 20
        = some "u1F600 20.png" ∧
      ("u1F600 20.png" : String) ≠ "dup/u1F600 20.png" :=
  ⟨rfl, by decide⟩

/-- C2 amended: duplicate `(name, size)` pairs resolve first-write-wins —
every pair present in the returned AssetSet maps to the path of the FIRST
directory entry that contributes that pair. -/
theorem assetsInfo_first_write_wins (entries : List DirEntry)
    (assets : AssetMap) (ign : List (String × String)) (n : List Char)
    (s : Int) (p : String)
    (hok : assetsInfo entries = .ok (assets, ign))
    (hl : lookup2 assets n s = some p) :
    (entries.find? (fun e => entryContributes e == some (n, s))).map
      DirEntry.path = some p := by
  unfold assetsInfo at hok
  cases hloop : assetsInfoLoop entries [] [] with
  | error msg =>
    rw [hloop] at hok
    exact Except.noConfusion hok
  | ok pr =>
    obtain ⟨info, ign0⟩ := pr
    rw [hloop] at hok
    simp only [Except.ok.injEq, Prod.mk.injEq] at hok
    obtain ⟨h1, _⟩ := hok
    subst h1
    have hnd : (info.map Prod.fst).Nodup :=
      assetsInfoLoop_nodup entries [] [] ign0 info hloop (by simp)
    have hl2 : lookup2 info n s = some p := lookup2_filterComplete hnd hl
    have h3 := assetsInfoLoop_lookup entries [] [] ign0 info n s hloop
    have hnil : lookup2 ([] : AssetMap) n s = none := rfl
    rw [hnil, Option.none_or] at h3
    rw [← h3]
    exact hl2

/-- C2 amended witness: first-write-wins applied to the concrete duplicate
directory listing. -/
theorem assetsInfo_first_write_wins_witness :
    (dupEntries.find?
        (fun e => entryContributes e == some ("u1F600".toList, 20))).map
      DirEntry.path = some "u1F600 20.png" :=
  assetsInfo_first_write_wins dupEntries _ _ "u1F600".toList 20
    "u1F600 20.png" rfl rfl

theorem assetsInfoLoop_ok_of_names_ok :
    ∀ (entries : List DirEntry) (info : AssetMap)
      (ign : List (String × String)),
      (∀ e ∈ entries, e.isFile = true →
        ∀ raw sz, parseStem e.stem = some (raw, sz) →
          (reformatEmojiName raw).isOk = true) →
      ∃ res, assetsInfoLoop entries info ign = .ok res := by
  intro entries
  induction entries with
  | nil => exact fun info ign _ => ⟨(info, ign), rfl⟩
  | cons e0 rest ih =>
    intro info ign hnames
    have hrest : ∀ e ∈ rest, e.isFile = true →
        ∀ raw sz, parseStem e.stem = some (raw, sz) →
          (reformatEmojiName raw).isOk = true :=
      fun e he => hnames e (List.mem_cons_of_mem e0 he)
    simp only [assetsInfoLoop]
    cases hfe : e0.isFile with
    | false =>
      simp only [eq_self_iff_true, if_true]
      exact ih info _ hrest
    | true =>
      rw [if_neg (by simp)]
      cases hp0 : parseStem e0.stem with
      | none => exact ih info _ hrest
      | some rs0 =>
        obtain ⟨raw0, sz0⟩ := rs0
        dsimp only
        cases hr0 : reformatEmojiName raw0 with
        | error msg0 =>
          exfalso
          have hok := hnames e0 (List.mem_cons_self e0 rest) hfe raw0 sz0 hp0
          rw [hr0] at hok
          exact Bool.noConfusion hok
        | ok name0 => exact ih _ _ hrest

/-- C5 counterexample: a directory whose only file provides one size of
`u1F600` (so no glyph name completes the full size list) makes
`assets_info` return normally with an EMPTY asset mapping and the path
ignored as "has missing/invalid sizes" — it does not raise any
`EmptyAssetSet` error. -/
theorem assetsInfo_empty_counterexample :
    assetsInfo [⟨"u1F600 20.png", true, "u1F600 20".toList⟩]
      = .ok ([], [("u1F600 20.png", "has missing/invalid sizes")]) := rfl

/-- C5 amended: `assets_info` never fails because of emptiness — whenever
every file entry whose stem parses has a raw name that normalizes, the
function returns normally, even when the complete-set filtering leaves an
empty mapping; there is no `EmptyAssetSet` error in the builder. -/
theorem assetsInfo_no_empty_error (entries : List DirEntry)
    (hnames : ∀ e ∈ entries, e.isFile = true →
      ∀ raw sz, parseStem e.stem = some (raw, sz) →
        (reformatEmojiName raw).isOk = true) :
    ∃ assets ign, assetsInfo entries = .ok (assets, ign) := by
  obtain ⟨⟨info, ign0⟩, hloop⟩ :=
    assetsInfoLoop_ok_of_names_ok entries [] [] hnames
  refine ⟨(filterComplete info).1, ign0 ++ (filterComplete info).2, ?_⟩
  unfold assetsInfo
  rw [hloop]

/-- C5 amended witness: the no-error theorem applied to the incomplete
one-file directory of the counterexample. -/
theorem assetsInfo_no_empty_error_witness :
    ∃ assets ign,
      assetsInfo [⟨"u1F600 20.png", true, "u1F600 20".toList⟩]
        = .ok (assets, ign) :=
  assetsInfo_no_empty_error _
    (by
      intro e he hf raw sz hp
      rw [List.mem_singleton] at he
      subst he
      have hp2 : some (("u1F600".toList : List Char), (20 : Int))
          = some (raw, sz) := hp
      injection hp2 with h2
      injection h2 with h3 h4
      rw [← h3]
      rfl)

/-- a glyph element of a strike: its `name` attribute, its `hexdata` child
(`some t` meaning a hexdata child whose text is `t`), and all its other
attributes and content, which injection never touches. -/
structure Glyph where
  name : List Char
  hexdata : Option String
  attrs : String
deriving DecidableEq

/-- a `strike` element: its glyph children plus all other content. -/
structure Strike where
  glyphs : List Glyph
  meta : String
deriving DecidableEq

/-- the parsed TTX tree: its `./sbix/strike` list plus everything else. -/
structure FontTree where
  strikes : List Strike
  rest : String
deriving DecidableEq

/-- Model of `root.findall("./sbix/strike")`: ElementTree `findall` returns
a list — possibly empty, but NEVER `None` — so this is always `some`; the
`is None` guard in `insert_all_emojis` can therefore never fire. -/
def findallStrikes (t : FontTree) : Option (List Strike) :=
  some t.strikes

/-- ElementTree `strike.find("./glyph[@name='...']/hexdata")` succeeds iff
some glyph child has the name attribute and a hexdata child. -/
def hasGlyphHex (gs : List Glyph) (name : List Char) : Bool :=
  gs.any (fun g => g.name == name && g.hexdata.isSome)

/-- setting `.text` on the element found by
`strike.find("./glyph[@name='...']/hexdata")`: the first glyph with the
given name and a hexdata child gets its hexdata text replaced. -/
def patchFirst (name : List Char) (hex : String) : List Glyph → List Glyph
  | [] => []
  | g :: gs =>
    if g.name = name ∧ g.hexdata.isSome then
      { g with hexdata := some hex } :: gs
    else
      g :: patchFirst name hex gs

/-- Model of the loop of `insert_emoji`: `for strike, size in
zip(strikes, ASSET_SIZES)` — `zip` truncates to the shorter list, there is
no check that the counts agree.  `hex` maps an asset path to
`png_to_hex(path)`. -/
def insertEmojiGo (hex : String → String) (name : List Char)
    (sizePaths : List (Int × String)) :
    List Strike → List Int → Except String (List Strike)
  | [], _ => .ok []
  | ss, [] => .ok ss
  | strike :: ss, z :: zs =>
    if hasGlyphHex strike.glyphs name then
      match lookupA z sizePaths with
      | none => .error "KeyError"
      | some path =>
        match insertEmojiGo hex name sizePaths ss zs with
        | .error e => .error e
        | .ok rest =>
          .ok ({ strike with
            glyphs := patchFirst name (hex path) strike.glyphs } :: rest)
    else .error "Invalid TTX file with no glyph"

/-- Model of `insert_emoji` from `macmoji/inserter.py`. -/
def insertEmoji (hex : String → String) (strikes : List Strike)
    (name : List Char) (sizePaths : List (Int × String)) :
    Except String (List Strike) :=
  insertEmojiGo hex name sizePaths strikes ASSET_SIZES

/-- the `for name, size_paths in assets.items(): insert_emoji(...)` loop of
`insert_all_emojis`, threading the in-place strike mutations. -/
def insertLoop (hex : String → String) :
    AssetMap → List Strike → Except String (List Strike)
  | [], ss => .ok ss
  | (name, sp) :: rest, ss =>
    match insertEmoji hex ss name sp with
    | .error e => .error e
    | .ok ss' => insertLoop hex rest ss'

/-- Model of `insert_all_emojis` from `macmoji/inserter.py`.  Faithful to
the source: the `successful` list is created and returned but never
appended to, and the strike guard compares `findall`'s result against
`None`, which `findall` never returns. -/
def insertAllEmojis (hex : String → String) (entries : List DirEntry)
    (tree : FontTree) :
    Except String (List String × List (String × String) × FontTree) :=
  match findallStrikes tree with
  | none => .error "Invalid TTX file with no SBIX strikes"
  | some strikes =>
    match assetsInfo entries with
    | .error e => .error e
    | .ok (assets, ignored) =>
      match insertLoop hex assets strikes with
      | .error e => .error e
      | .ok strikes' => .ok ([], ignored, { tree with strikes := strikes' })

theorem insertLoop_nil_strikes (hex : String → String) :
    ∀ assets : AssetMap, insertLoop hex assets [] = .ok [] := by
  intro assets
  induction assets with
  | nil => rfl
  | cons p rest ih =>
    obtain ⟨n, sp⟩ := p
    exact ih

/-- C3: the claim says an empty `./sbix/strike` list makes
`insert_all_emojis` raise a MissingBitmapStrikes error, and the code even
carries the corresponding message — but `findall` returns an empty list,
never `None`, so the `is None` guard is dead and the function completes
without raising and without patching anything.  This theorem evaluates the
code on any empty-strike tree: it returns `ok` with the tree unchanged. -/
theorem insertAllEmojis_empty_strikes_no_raise (hex : String → String)
    (entries : List DirEntry) (r : String) (assets : AssetMap)
    (ign : List (String × String))
    (hok : assetsInfo entries = .ok (assets, ign)) :
    insertAllEmojis hex entries ⟨[], r⟩ = .ok ([], ign, ⟨[], r⟩) := by
  unfold insertAllEmojis findallStrikes
  dsimp only
  rw [hok]
  dsimp only
  rw [insertLoop_nil_strikes hex assets]

/-- C3 witness: the empty-strike tree with an empty assets directory:
`insert_all_emojis` returns normally instead of raising. -/
theorem insertAllEmojis_empty_strikes_no_raise_witness :
    insertAllEmojis (fun _ => "") [] ⟨[], "tree-rest"⟩
      = .ok ([], [], ⟨[], "tree-rest"⟩) :=
  insertAllEmojis_empty_strikes_no_raise (fun _ => "") [] "tree-rest" [] []
    rfl

/-- C4: the first component of a successful `insert_all_emojis` result is
ALWAYS the empty list: the `successful` variable is declared and returned
but never appended to, so the claimed list of successfully patched glyph
names is never produced. -/
theorem insertAllEmojis_successful_always_empty (hex : String → String)
    (entries : List DirEntry) (tree : FontTree)
    (r : List String × List (String × String) × FontTree)
    (h : insertAllEmojis hex entries tree = .ok r) : r.1 = [] := by
  unfold insertAllEmojis findallStrikes at h
  dsimp only at h
  cases ha : assetsInfo entries with
  | error e =>
    rw [ha] at h
    exact Except.noConfusion h
  | ok pr =>
    obtain ⟨assets, ign⟩ := pr
    rw [ha] at h
    dsimp only at h
    cases hl : insertLoop hex assets tree.strikes with
    | error e =>
      rw [hl] at h
      exact Except.noConfusion h
    | ok ss' =>
      rw [hl] at h
      dsimp only at h
      injection h with h2
      rw [← h2]

/-- the nine-strike tree used as a concrete injection target: every strike
holds a `u1F600` glyph with payload `old` plus an unrelated `uFF` glyph. -/
def sampleStrike : Strike :=
  ⟨[⟨"u1F600".toList, some "old", "a"⟩, ⟨"uFF".toList, some "keep", "b"⟩],
    "m"⟩

def sampleTree : FontTree := ⟨List.replicate 9 sampleStrike, "tree-rest"⟩

/-- the nine-strike tree after injecting the `u1F600` set with constant
payload `NEWHEX`: every strike's first `u1F600` glyph is patched, the `uFF`
glyph is untouched. -/
def patchedTree : FontTree :=
  ⟨List.replicate 9
    ⟨[⟨"u1F600".toList, some "NEWHEX", "a"⟩, ⟨"uFF".toList, some "keep", "b"⟩],
      "m"⟩, "tree-rest"⟩

/-- C4 witness: a run that really patches a complete `u1F600` asset set
into the nine-strike tree (the tree changes) still returns `[]` as its
"successfully patched" list. -/
theorem insertAllEmojis_successful_always_empty_witness :
    insertAllEmojis (fun _ => "NEWHEX") dupEntries sampleTree
        = .ok ([], [], patchedTree) ∧
      (([], [], patchedTree) :
        List String × List (String × String) × FontTree).1 = [] ∧
      patchedTree ≠ sampleTree := by
  have heq : insertAllEmojis (fun _ => "NEWHEX") dupEntries sampleTree
      = .ok ([], [], patchedTree) := rfl
  refine ⟨heq, ?_, by decide⟩
  exact insertAllEmojis_successful_always_empty (fun _ => "NEWHEX") dupEntries
    sampleTree _ heq

/-- the frame relation one `insert_emoji` call establishes between a glyph
and its updated version: name, other attributes and hexdata-presence are
preserved, and a glyph not named `name` is completely unchanged. -/
def glyphFrame (name : List Char) (g g' : Glyph) : Prop :=
  g'.name = g.name ∧ g'.attrs = g.attrs ∧
    g'.hexdata.isSome = g.hexdata.isSome ∧ (g.name ≠ name → g' = g)

/-- the frame relation the whole injection loop establishes: only glyphs
whose name is one of the AssetSet keys may change, and then only their
hexdata text. -/
def glyphFrameSet (names : List (List Char)) (g g' : Glyph) : Prop :=
  g'.name = g.name ∧ g'.attrs = g.attrs ∧
    g'.hexdata.isSome = g.hexdata.isSome ∧ (g.name ∉ names → g' = g)

def strikeFrame (name : List Char) (s s' : Strike) : Prop :=
  s'.meta = s.meta ∧ List.Forall₂ (glyphFrame name) s.glyphs s'.glyphs

def strikeFrameSet (names : List (List Char)) (s s' : Strike) : Prop :=
  s'.meta = s.meta ∧ List.Forall₂ (glyphFrameSet names) s.glyphs s'.glyphs

theorem forall₂_refl_of {α : Type} {R : α → α → Prop} (h : ∀ a, R a a) :
    ∀ l : List α, List.Forall₂ R l l
  | [] => List.Forall₂.nil
  | a :: l => List.Forall₂.cons (h a) (forall₂_refl_of h l)

theorem glyphFrame_refl (name : List Char) (g : Glyph) : glyphFrame name g g :=
  ⟨rfl, rfl, rfl, fun _ => rfl⟩

theorem glyphFrameSet_refl (names : List (List Char)) (g : Glyph) :
    glyphFrameSet names g g :=
  ⟨rfl, rfl, rfl, fun _ => rfl⟩

theorem strikeFrame_refl (name : List Char) (s : Strike) :
    strikeFrame name s s :=
  ⟨rfl, forall₂_refl_of (glyphFrame_refl name) s.glyphs⟩

theorem strikeFrameSet_refl (names : List (List Char)) (s : Strike) :
    strikeFrameSet names s s :=
  ⟨rfl, forall₂_refl_of (glyphFrameSet_refl names) s.glyphs⟩

theorem patchFirst_frame (name : List Char) (hex : String) :
    ∀ gs : List Glyph, List.Forall₂ (glyphFrame name) gs (patchFirst name hex gs) := by
  intro gs
  induction gs with
  | nil => exact List.Forall₂.nil
  | cons g rest ih =>
    by_cases hc : g.name = name ∧ g.hexdata.isSome
    · simp only [patchFirst, if_pos hc]
      refine List.Forall₂.cons ⟨rfl, rfl, ?_, ?_⟩
        (forall₂_refl_of (glyphFrame_refl name) rest)
      · simp [hc.2]
      · intro hne
        exact absurd hc.1 hne
    · simp only [patchFirst, if_neg hc]
      exact List.Forall₂.cons (glyphFrame_refl name g) ih

theorem insertEmojiGo_frame (hex : String → String) (name : List Char)
    (sp : List (Int × String)) :
    ∀ (ss : List Strike) (zs : List Int) (ss' : List Strike),
      insertEmojiGo hex name sp ss zs = .ok ss' →
      List.Forall₂ (strikeFrame name) ss ss' := by
  intro ss
  induction ss with
  | nil =>
    intro zs ss' h
    cases zs with
    | nil =>
      have h2 : (Except.ok [] : Except String (List Strike)) = .ok ss' := h
      injection h2 with h3
      rw [← h3]
      exact List.Forall₂.nil
    | cons z zs' =>
      have h2 : (Except.ok [] : Except String (List Strike)) = .ok ss' := h
      injection h2 with h3
      rw [← h3]
      exact List.Forall₂.nil
  | cons s rest ih =>
    intro zs ss' h
    cases zs with
    | nil =>
      have h2 : (Except.ok (s :: rest) : Except String (List Strike))
          = .ok ss' := h
      injection h2 with h3
      rw [← h3]
      exact forall₂_refl_of (strikeFrame_refl name) (s :: rest)
    | cons z zs' =>
      simp only [insertEmojiGo] at h
      by_cases hg : hasGlyphHex s.glyphs name
      · rw [if_pos hg] at h
        cases hl : lookupA z sp with
        | none =>
          rw [hl] at h
          exact Except.noConfusion h
        | some path =>
          rw [hl] at h
          dsimp only at h
          cases hrec : insertEmojiGo hex name sp rest zs' with
          | error e =>
            rw [hrec] at h
            exact Except.noConfusion h
          | ok rest' =>
            rw [hrec] at h
            dsimp only at h
            injection h with h2
            rw [← h2]
            exact List.Forall₂.cons
              ⟨rfl, patchFirst_frame name (hex path) s.glyphs⟩
              (ih zs' rest' hrec)
      · rw [if_neg hg] at h
        exact Except.noConfusion h

theorem glyphFrame_comp {n : List Char} {names : List (List Char)}
    {g g' g'' : Glyph} (h1 : glyphFrame n g g')
    (h2 : glyphFrameSet names g' g'') : glyphFrameSet (n :: names) g g'' := by
  obtain ⟨ha1, ha2, ha3, ha4⟩ := h1
  obtain ⟨hb1, hb2, hb3, hb4⟩ := h2
  refine ⟨hb1.trans ha1, hb2.trans ha2, hb3.trans ha3, ?_⟩
  intro hnot
  have hn1 : g.name ≠ n := fun he => hnot (he ▸ List.mem_cons_self n names)
  have he1 : g' = g := ha4 hn1
  have hnot2 : g'.name ∉ names := by
    rw [he1]
    exact fun hm => hnot (List.mem_cons_of_mem n hm)
  rw [hb4 hnot2, he1]

theorem forall₂_comp {α : Type} {R S T : α → α → Prop}
    (hcomp : ∀ a b c, R a b → S b c → T a c) :
    ∀ {l1 l2 l3 : List α}, List.Forall₂ R l1 l2 → List.Forall₂ S l2 l3 →
      List.Forall₂ T l1 l3 := by
  intro l1 l2 l3 h1 h2
  induction h1 generalizing l3 with
  | nil =>
    cases h2
    exact List.Forall₂.nil
  | cons hab h1' ih =>
    cases h2 with
    | cons hbc h2' => exact List.Forall₂.cons (hcomp _ _ _ hab hbc) (ih h2')

theorem strikeFrame_comp {n : List Char} {names : List (List Char)}
    {s s' s'' : Strike} (h1 : strikeFrame n s s')
    (h2 : strikeFrameSet names s' s'') : strikeFrameSet (n :: names) s s'' := by
  obtain ⟨m1, f1⟩ := h1
  obtain ⟨m2, f2⟩ := h2
  refine ⟨m2.trans m1, ?_⟩
  exact @forall₂_comp Glyph (glyphFrame n) (glyphFrameSet names)
    (glyphFrameSet (n :: names)) (fun _ _ _ ha hb => glyphFrame_comp ha hb)
    s.glyphs s'.glyphs s''.glyphs f1 f2

theorem insertLoop_frame (hex : String → String) :
    ∀ (assets : AssetMap) (ss ss' : List Strike),
      insertLoop hex assets ss = .ok ss' →
      List.Forall₂ (strikeFrameSet (assets.map Prod.fst)) ss ss' := by
  intro assets
  induction assets with
  | nil =>
    intro ss ss' h
    have h2 : (Except.ok ss : Except String (List Strike)) = .ok ss' := h
    injection h2 with h3
    rw [← h3]
    exact forall₂_refl_of (strikeFrameSet_refl []) ss
  | cons p rest ih =>
    obtain ⟨n, sp⟩ := p
    intro ss ss' h
    simp only [insertLoop] at h
    cases he : insertEmoji hex ss n sp with
    | error e =>
      rw [he] at h
      exact Except.noConfusion h
    | ok s1 =>
      rw [he] at h
      dsimp only at h
      have hf1 : List.Forall₂ (strikeFrame n) ss s1 :=
        insertEmojiGo_frame hex n sp ss ASSET_SIZES s1 he
      have hf2 := ih s1 ss' h
      exact @forall₂_comp Strike (strikeFrame n)
        (strikeFrameSet (rest.map Prod.fst))
        (strikeFrameSet (n :: rest.map Prod.fst))
        (fun _ _ _ ha hb => strikeFrame_comp ha hb) ss s1 ss' hf1 hf2

/-- C8: a successful injection only replaces hexdata payload text of glyph
entries named in the AssetSet: everything outside the strike list is
unchanged, no strike and no glyph entry is added or removed, each strike's
other content is preserved, every glyph keeps its name, its other
attributes and its hexdata-presence, and a glyph whose name is not a key of
the AssetSet is completely unchanged. -/
theorem insertAllEmojis_frame (hex : String → String)
    (entries : List DirEntry) (tree : FontTree) (assets : AssetMap)
    (ign0 ign : List (String × String)) (succ : List String) (t' : FontTree)
    (ha : assetsInfo entries = .ok (assets, ign0))
    (h : insertAllEmojis hex entries tree = .ok (succ, ign, t')) :
    t'.rest = tree.rest ∧
    t'.strikes.length = tree.strikes.length ∧
    List.Forall₂ (strikeFrameSet (assets.map Prod.fst)) tree.strikes
      t'.strikes := by
  unfold insertAllEmojis findallStrikes at h
  dsimp only at h
  rw [ha] at h
  dsimp only at h
  cases hl : insertLoop hex assets tree.strikes with
  | error e =>
    rw [hl] at h
    exact Except.noConfusion h
  | ok ss' =>
    rw [hl] at h
    dsimp only at h
    injection h with h2
    have ht : t' = { tree with strikes := ss' } :=
      (congrArg (fun x => x.2.2) h2).symm
    have hfr := insertLoop_frame hex assets tree.strikes ss' hl
    rw [ht]
    exact ⟨rfl, hfr.length_eq.symm, hfr⟩

/-- the `assets_info` result for the duplicate directory listing: one
complete `u1F600` entry, nothing ignored (the silent duplicate is neither
kept nor reported). -/
def sampleAssets : AssetMap :=
  [("u1F600".toList,
    [(20, "u1F600 20.png"), (26, "u1F600 26.png"), (32, "u1F600 32.png"),
     (40, "u1F600 40.png"), (48, "u1F600 48.png"), (52, "u1F600 52.png"),
     (64, "u1F600 64.png"), (96, "u1F600 96.png"),
     (160, "u1F600 160.png")])]

/-- C8 witness: the frame theorem applied to the concrete nine-strike
injection run. -/
theorem insertAllEmojis_frame_witness :
    patchedTree.rest = sampleTree.rest ∧
    patchedTree.strikes.length = sampleTree.strikes.length ∧
    List.Forall₂ (strikeFrameSet (sampleAssets.map Prod.fst))
      sampleTree.strikes patchedTree.strikes :=
  insertAllEmojis_frame (fun _ => "NEWHEX") dupEntries sampleTree
    sampleAssets [] [] [] patchedTree rfl rfl

theorem insertEmojiGo_eq (hex : String → String) (name : List Char)
    (sp : List (Int × String)) :
    ∀ (ss : List Strike) (zs : List Int),
      (∀ s ∈ ss.take zs.length, hasGlyphHex s.glyphs name = true) →
      (∀ z ∈ zs.take ss.length, (lookupA z sp).isSome = true) →
      insertEmojiGo hex name sp ss zs = .ok
        (List.zipWith
            (fun s z =>
              { s with glyphs :=
                  patchFirst name (hex ((lookupA z sp).getD "")) s.glyphs })
            ss zs ++ ss.drop zs.length) := by
  intro ss
  induction ss with
  | nil =>
    intro zs _ _
    cases zs <;> rfl
  | cons s rest ih =>
    intro zs hg hz
    cases zs with
    | nil => rfl
    | cons z zs' =>
      have hgs : hasGlyphHex s.glyphs name = true := by
        apply hg s
        simp
      have hzs : (lookupA z sp).isSome = true := by
        apply hz z
        simp
      have hg' : ∀ s' ∈ rest.take zs'.length,
          hasGlyphHex s'.glyphs name = true := by
        intro s' hs'
        apply hg s'
        simp [hs']
      have hz' : ∀ z' ∈ zs'.take rest.length,
          (lookupA z' sp).isSome = true := by
        intro z' hz2
        apply hz z'
        simp [hz2]
      obtain ⟨path, hpath⟩ := Option.isSome_iff_exists.mp hzs
      simp only [insertEmojiGo, hgs, if_true, hpath]
      rw [ih zs' hg' hz']
      simp [hpath]

/-- C10 counterexample: a tree with a single strike (so strike count 1,
strictly between 0 and 9) whose strike does not contain the requested
glyph makes `insert_emoji` raise instead of returning without raising as
the claim states. -/
theorem insertEmoji_missing_glyph_counterexample :
    insertEmoji (fun _ => "h") [⟨[], "meta1"⟩] "u1F600".toList [(20, "p20")]
      = .error "Invalid TTX file with no glyph" := rfl

/-- C10 amended: `insert_emoji` never compares the strike count against the
nine fixed sizes: `zip` pairs the i-th strike with the i-th size and
truncates to the shorter list, so — provided each paired strike contains
the named glyph and each paired size has an asset path — it patches exactly
the first `min(k, 9)` strikes and returns without raising, leaving strikes
beyond the ninth untouched. -/
theorem insertEmoji_no_count_check (hex : String → String)
    (name : List Char) (sp : List (Int × String)) (strikes : List Strike)
    (hglyph : ∀ s ∈ strikes.take ASSET_SIZES.length,
      hasGlyphHex s.glyphs name = true)
    (hsz : ∀ z ∈ ASSET_SIZES.take strikes.length,
      (lookupA z sp).isSome = true) :
    insertEmoji hex strikes name sp = .ok
      (List.zipWith
          (fun s z =>
            { s with glyphs :=
                patchFirst name (hex ((lookupA z sp).getD "")) s.glyphs })
          strikes ASSET_SIZES ++ strikes.drop ASSET_SIZES.length) :=
  insertEmojiGo_eq hex name sp strikes ASSET_SIZES hglyph hsz

/-- the two-strike tree fragment used for the C10 witness. -/
def smallStrikes : List Strike :=
  [⟨[⟨"u1F600".toList, some "o1", "x"⟩], "m1"⟩,
   ⟨[⟨"u1F600".toList, some "o2", "y"⟩], "m2"⟩]

/-- C10 amended witness: with two strikes (fewer than the nine sizes) and
the glyph present in both, `insert_emoji` patches both paired strikes and
returns without raising. -/
theorem insertEmoji_no_count_check_witness :
    insertEmoji (fun p => p) smallStrikes "u1F600".toList
        [(20, "p20"), (26, "p26")] = .ok
      (List.zipWith
          (fun s z =>
            { s with
                glyphs :=
                  patchFirst "u1F600".toList
                    ((lookupA z [(20, "p20"), (26, "p26")]).getD "")
                    s.glyphs })
          smallStrikes ASSET_SIZES ++ smallStrikes.drop ASSET_SIZES.length) :=
  insertEmoji_no_count_check (fun p => p) "u1F600".toList
    [(20, "p20"), (26, "p26")] smallStrikes (by decide) (by decide)

/-- the progress state of one rich task: `total` is `None` until set
(rich's `add_task(description, total=None)`), `completed` is the last
value written by the polling loop.  The numeric carrier is modelled as
`Int`; `_set_completed` only copies values and writes the literal 1, so no
float arithmetic is involved. -/
structure TaskProgress where
  total : Option Int
  completed : Int
deriving DecidableEq

/-- Model of `ProgressTask._set_completed` from `macmoji/utils.py`: if the
task's total is `None`, set total and completed to 1; otherwise set total
to the current completed value. -/
def setCompleted (s : TaskProgress) : TaskProgress :=
  match s.total with
  | none => { total := some 1, completed := 1 }
  | some _ => { s with total := some s.completed }

/-- the progress state after `_progress_runner` exits its loop: for tasks
with a progress runner it calls `_set_completed` once; otherwise it
returns without touching the state. -/
def progressRunnerFinal (progressRunner : Bool) (s : TaskProgress) :
    TaskProgress :=
  if progressRunner then setCompleted s else s

/-- the progress state after `join()`: the progress thread's final
`_set_completed` (when it runs) followed by `join`'s own
`_set_completed`. -/
def joinProgress (progressRunner : Bool) (s : TaskProgress) : TaskProgress :=
  setCompleted (progressRunnerFinal progressRunner s)

/-- C9: after `join()` the reported progress equals 100% of the total
(total = some completed), with the claimed values — an unset total makes
both total and completed 1, an existing total is overwritten with the
current completed value (completed itself unchanged) — and a second
`_set_completed` on an already-completed task is a no-op, so `join`'s
forced completion after the runner's one is harmless. -/
theorem setCompleted_completes_and_idempotent (pr : Bool)
    (st : TaskProgress) (c t : Int) :
    (joinProgress pr st).total = some (joinProgress pr st).completed ∧
    setCompleted { total := none, completed := c }
      = { total := some 1, completed := 1 } ∧
    setCompleted { total := some t, completed := c }
      = { total := some c, completed := c } ∧
    setCompleted (setCompleted st) = setCompleted st ∧
    joinProgress pr st = setCompleted st := by
  have hforce : ∀ s : TaskProgress,
      (setCompleted s).total = some (setCompleted s).completed := by
    intro s
    obtain ⟨tot, comp⟩ := s
    cases tot <;> rfl
  have hidem : ∀ s : TaskProgress,
      setCompleted (setCompleted s) = setCompleted s := by
    intro s
    obtain ⟨tot, comp⟩ := s
    cases tot <;> rfl
  have hjoin : joinProgress pr st = setCompleted st := by
    unfold joinProgress progressRunnerFinal
    cases pr with
    | false => rfl
    | true => exact hidem st
  exact ⟨hforce (progressRunnerFinal pr st), rfl, rfl, hidem st, hjoin⟩

example : reformatEmojiName "1f469_U1f91d_1F468".toList
    = .ok "u1F469_u1F91D_u1F468".toList := rfl
example : reformatEmojiName "1f385_u1f3fb.2.M".toList
    = .ok "u1F385_u1F3FB.2.M".toList := rfl
example : reformatEmojiName "u1F385__u1F3FB".toList
    = .error "Invalid emoji name (codes)" := rfl
example : reformatEmojiName [] = .error "Invalid emoji name (codes)" := rfl

end Macmoji
